import Mathlib

/-!
Verification of the backlink grouping core of `src/BacklinksTreeDataProvider.ts`.

JavaScript strings are modelled as lists of characters (`JsStr`), so every
string operation used by the code computes inside the kernel.  JavaScript's
ordinal string comparison (`<` on strings) is modelled by the lexicographic
order on `List Char`.
-/

abbrev JsStr := List Char

/-- `vscode.Position`: a zero-indexed (line, character) pair. -/
structure Position where
  line : Nat
  character : Nat
deriving DecidableEq, Repr

/-- `vscode.Range`: the field `end` is a Lean keyword, so it is called `stop`
here; only `start` is ever read by the code under verification. -/
structure Range where
  start : Position
  stop : Position
deriving DecidableEq, Repr

/-- The part of `vscode.Uri` the code reads: the filesystem path. -/
structure Uri where
  fsPath : JsStr
deriving DecidableEq, Repr

/-- `vscode.Location`: a file together with a range inside it. -/
structure Location where
  uri : Uri
  range : Range
deriving DecidableEq, Repr

/-- The `FileWithLocations` record type of `BacklinksTreeDataProvider.ts`. -/
structure FileWithLocations where
  file : JsStr
  locations : List Location
deriving DecidableEq, Repr

/-- Model of `path.basename`: the characters after the last `/`.  (Node also
strips trailing slashes; filesystem paths of files never end in `/`, so that
case does not arise here.) -/
def basename (p : JsStr) : JsStr :=
  p.foldl (fun acc c => if c = '/' then [] else acc ++ [c]) []

/-- The `asc` comparator of `locationListToTree`, specialised to strings as it
is used: `-1` if `a < b`, `1` if `a > b`, else `0`. -/
def asc (a b : JsStr) : Int :=
  if a < b then -1 else if b < a then 1 else 0

/-- The location comparator inlined in `locationListToTree`: compare the start
positions, line first, then character. -/
def compareLocations (locA locB : Location) : Int :=
  let a := locA.range.start
  let b := locB.range.start
  if a.line < b.line then -1
  else if a.line > b.line then 1
  else if a.character < b.character then -1
  else if a.character > b.character then 1
  else 0

/-- One step of the record-building loop of `locationListToTree`: JavaScript
records with non-numeric string keys enumerate values in key-insertion order,
so `m` is modelled as a list of groups in insertion order, with an entry pushed
at the end when the key is fresh. -/
def addLoc (m : List FileWithLocations) (l : Location) : List FileWithLocations :=
  let f := basename l.uri.fsPath
  if m.any (fun fwl => decide (fwl.file = f)) then
    m.map (fun fwl => if fwl.file = f then { fwl with locations := fwl.locations ++ [l] } else fwl)
  else
    m ++ [{ file := f, locations := [l] }]

/-- Model of JavaScript `Array.prototype.sort(cmp)`: a stable sort that keeps
`a` before `b` whenever `cmp a b ≤ 0`. -/
def jsSort {α : Type} (cmp : α → α → Int) (l : List α) : List α :=
  List.insertionSort (fun a b => cmp a b ≤ 0) l

/-- `BacklinksTreeDataProvider.locationListToTree`: build the per-file record,
take its values, sort the files by name with `asc`, then sort each file's
locations by start position. -/
def locationListToTree (locations : List Location) : List FileWithLocations :=
  let arr := locations.foldl addLoc []
  let sortedByFile := jsSort (fun a b => asc a.file b.file) arr
  sortedByFile.map (fun fwl => { fwl with locations := jsSort compareLocations fwl.locations })

/-- Splitting on the regular expression `\r?\n`, as
`fileContents.split(/\r?\n/)` does: `\r\n` and `\n` separate lines, a lone
`\r` does not.  Splitting the empty string yields `[""]`. -/
def splitLinesAux : JsStr → JsStr → List JsStr
  | [], cur => [cur.reverse]
  | '\r' :: '\n' :: rest, cur => cur.reverse :: splitLinesAux rest []
  | '\n' :: rest, cur => cur.reverse :: splitLinesAux rest []
  | c :: rest, cur => splitLinesAux rest (c :: cur)

def splitLines (s : JsStr) : List JsStr := splitLinesAux s []

/-- The preview start offset computed in the `BacklinkItem` constructor:
`s = character - 12`, replaced by `0` when `s < 20`. -/
def previewStart (character : Nat) : Int :=
  let s : Int := (character : Int) - 12
  if s < 20 then 0 else s

/-- The `description` computed in the `BacklinkItem` constructor when a
single `location` is present: split `fileContents || ''` into lines, index by
the start line, and take `line.substr(s)`.  When the line index is out of
range the JavaScript lookup yields `undefined` and `.substr` throws a
`TypeError`; that branch is `none`.  After clamping, `s` is never negative, so
`substr` is the suffix from `s`, modelled by `List.drop`. -/
def backlinkDescription (fileContents : Option JsStr) (location : Location) : Option JsStr :=
  let lines := splitLines (fileContents.getD [])
  match lines[location.range.start.line]? with
  | none => none
  | some line => some (line.drop (previewStart location.range.start.character).toNat)

/-- `RefType` from `Ref.ts`, as used here: the two reference kinds. -/
inductive RefType
  | WikiLink
  | Hyperlink
deriving DecidableEq, Repr

/-- JavaScript truthiness of a `string | null | undefined` value: `null`,
`undefined` and the empty string are falsy. -/
def falsy : Option JsStr → Bool
  | none => true
  | some s => decide (s = [])

/-- The environment read by `getChildren`: the active editor's file path (if
any) and the provider's `workspaceRoot`. -/
structure Env where
  activeFsPath : Option JsStr
  workspaceRoot : Option JsStr

/-- The observable outcome of a top-level `getChildren` call: the grouped
tree that is turned one-for-one into collapsible `BacklinkItem`s, the
`NoteParser.searchBacklinksFor` queries that were issued, and whether the
informational message was shown. -/
structure TopQueryResult where
  groups : List FileWithLocations
  issued : List (RefType × JsStr)
  showedMessage : Bool
deriving DecidableEq, Repr

/-- `getChildren` with no `element` (the top level).  `search` stands for
`NoteParser.searchBacklinksFor`; the two kind-scans are started together and
`Promise.all` joins them, so grouping is applied exactly to the concatenation
of the completed wiki-link results with the completed hyperlink results. -/
def getChildrenTop (env : Env) (search : RefType → JsStr → List Location) : TopQueryResult :=
  if falsy env.activeFsPath then
    { groups := [], issued := [], showedMessage := false }
  else if falsy env.workspaceRoot then
    { groups := [], issued := [], showedMessage := true }
  else
    let activeFilename := basename (env.activeFsPath.getD [])
    let wiki := search RefType.WikiLink activeFilename
    let hyper := search RefType.Hyperlink activeFilename
    { groups := locationListToTree (wiki ++ hyper),
      issued := [(RefType.WikiLink, activeFilename), (RefType.Hyperlink, activeFilename)],
      showedMessage := false }

example :
    locationListToTree
      [⟨⟨['a','.','m','d']⟩, ⟨⟨3, 0⟩, ⟨3, 4⟩⟩⟩,
       ⟨⟨['b','.','m','d']⟩, ⟨⟨0, 0⟩, ⟨0, 4⟩⟩⟩,
       ⟨⟨['a','.','m','d']⟩, ⟨⟨1, 2⟩, ⟨1, 4⟩⟩⟩] =
      [⟨['a','.','m','d'],
        [⟨⟨['a','.','m','d']⟩, ⟨⟨1, 2⟩, ⟨1, 4⟩⟩⟩, ⟨⟨['a','.','m','d']⟩, ⟨⟨3, 0⟩, ⟨3, 4⟩⟩⟩]⟩,
       ⟨['b','.','m','d'],
        [⟨⟨['b','.','m','d']⟩, ⟨⟨0, 0⟩, ⟨0, 4⟩⟩⟩]⟩] := by
  decide

/-! ### Comparator lemmas -/

/-- The grouping key of a location, as computed inline in `locationListToTree`. -/
def keyOf (l : Location) : JsStr := basename l.uri.fsPath

/-- The sorting relation induced by the location comparator: start positions
in (line, character) lexicographic order. -/
def startLe (a b : Location) : Prop :=
  a.range.start.line < b.range.start.line ∨
    (a.range.start.line = b.range.start.line ∧
      a.range.start.character ≤ b.range.start.character)

lemma asc_le_iff (a b : JsStr) : asc a b ≤ 0 ↔ a ≤ b := by
  unfold asc
  split_ifs with h1 h2
  · simp [le_of_lt h1]
  · simp [not_le.mpr h2]
  · have hab : a = b := le_antisymm (not_lt.mp h2) (not_lt.mp h1)
    simp [hab]

lemma compareLocations_le_iff (a b : Location) :
    compareLocations a b ≤ 0 ↔ startLe a b := by
  simp only [compareLocations, startLe]
  split_ifs <;> simp_all <;> omega

lemma startLe_total (a b : Location) : startLe a b ∨ startLe b a := by
  unfold startLe; omega

lemma startLe_trans (a b c : Location) (h1 : startLe a b) (h2 : startLe b c) :
    startLe a c := by
  unfold startLe at *; omega

lemma startLe_antisymm_start (a b : Location) (h1 : startLe a b) (h2 : startLe b a) :
    a.range.start = b.range.start := by
  unfold startLe at *
  have hl : a.range.start.line = b.range.start.line := by omega
  have hc : a.range.start.character = b.range.start.character := by omega
  cases ha : a.range.start with
  | mk la ca =>
    cases hb : b.range.start with
    | mk lb cb => simp_all

/-! ### jsSort lemmas -/

lemma jsSort_perm {α : Type} (cmp : α → α → Int) (l : List α) :
    (jsSort cmp l).Perm l :=
  List.perm_insertionSort _ l

lemma jsSort_sorted {α : Type} (cmp : α → α → Int)
    (htrans : ∀ a b c, cmp a b ≤ 0 → cmp b c ≤ 0 → cmp a c ≤ 0)
    (htotal : ∀ a b, cmp a b ≤ 0 ∨ cmp b a ≤ 0) (l : List α) :
    (jsSort cmp l).Pairwise (fun a b => cmp a b ≤ 0) := by
  haveI : IsTotal α (fun a b => cmp a b ≤ 0) := ⟨htotal⟩
  haveI : IsTrans α (fun a b => cmp a b ≤ 0) := ⟨fun a b c => htrans a b c⟩
  exact List.sorted_insertionSort _ l

/-- A sorted list is determined by its multiset of elements whenever the
ordering relation is antisymmetric on those elements. -/
lemma eq_of_perm_of_pairwise {α : Type} {le : α → α → Prop} :
    ∀ {l₁ l₂ : List α},
      (∀ a ∈ l₁, ∀ b ∈ l₁, le a b → le b a → a = b) →
      l₁.Perm l₂ → l₁.Pairwise le → l₂.Pairwise le → l₁ = l₂
  | [], l₂, _, hp, _, _ => (hp.nil_eq).symm ▸ rfl
  | a :: t₁, [], _, hp, _, _ => absurd hp.symm.nil_eq (by simp)
  | a :: t₁, b :: t₂, hanti, hp, h₁, h₂ => by
    have hab : a = b := by
      by_cases hab : a = b
      · exact hab
      · have hbmem : b ∈ a :: t₁ := hp.mem_iff.mpr (List.mem_cons_self b t₂)
        have hbt : b ∈ t₁ := by
          cases List.mem_cons.mp hbmem with
          | inl h => exact absurd h.symm hab
          | inr h => exact h
        have hamem : a ∈ b :: t₂ := hp.mem_iff.mp (List.mem_cons_self a t₁)
        have hat : a ∈ t₂ := by
          cases List.mem_cons.mp hamem with
          | inl h => exact absurd h hab
          | inr h => exact h
        have hleab : le a b := (List.pairwise_cons.mp h₁).1 b hbt
        have hleba : le b a := (List.pairwise_cons.mp h₂).1 a hat
        exact hanti a (List.mem_cons_self a t₁) b hbmem hleab hleba
    subst hab
    have ht : t₁ = t₂ :=
      eq_of_perm_of_pairwise
        (fun x hx y hy => hanti x (List.mem_cons_of_mem a hx) y (List.mem_cons_of_mem a hy))
        hp.cons_inv (List.pairwise_cons.mp h₁).2 (List.pairwise_cons.mp h₂).2
    rw [ht]

/-! ### The record-building fold -/

/-- The three-part invariant of the record-building loop: group keys are
distinct, each group holds exactly the already-seen locations with its key in
input order, and the key set is the set of basenames seen so far. -/
def RecordInv (prev : List Location) (m : List FileWithLocations) : Prop :=
  (m.map FileWithLocations.file).Nodup ∧
  (∀ fwl ∈ m, fwl.locations = prev.filter (fun x => decide (keyOf x = fwl.file))) ∧
  (∀ f, f ∈ m.map FileWithLocations.file ↔ f ∈ prev.map keyOf)

lemma addLoc_file_eq (fwl : FileWithLocations) (f : JsStr) (l : Location) :
    (if fwl.file = f then { fwl with locations := fwl.locations ++ [l] } else fwl).file
      = fwl.file := by
  split_ifs <;> rfl

lemma addLoc_inv (prev : List Location) (m : List FileWithLocations) (x : Location)
    (h : RecordInv prev m) : RecordInv (prev ++ [x]) (addLoc m x) := by
  obtain ⟨hnd, hgr, hkeys⟩ := h
  simp only [addLoc]
  have hbk : basename x.uri.fsPath = keyOf x := rfl
  rw [hbk]
  split_ifs with hany
  · -- the key is already present: push onto the existing group
    have hmap : (m.map (fun fwl =>
        if fwl.file = keyOf x then { fwl with locations := fwl.locations ++ [x] } else fwl)).map
          FileWithLocations.file = m.map FileWithLocations.file := by
      rw [List.map_map]
      exact List.map_congr_left (fun fwl _ => addLoc_file_eq fwl (keyOf x) x)
    have hin : keyOf x ∈ m.map FileWithLocations.file := by
      rcases List.any_eq_true.mp hany with ⟨fwl, hfwl, hdec⟩
      have : fwl.file = keyOf x := of_decide_eq_true hdec
      exact this ▸ List.mem_map_of_mem FileWithLocations.file hfwl
    refine ⟨by rw [hmap]; exact hnd, ?_, ?_⟩
    · intro fwl' hmem
      rcases List.mem_map.mp hmem with ⟨fwl, hfwl, hEq⟩
      subst hEq
      by_cases hf : fwl.file = keyOf x
      · simp only [if_pos hf]
        rw [List.filter_append, ← hgr fwl hfwl]
        simp [hf]
      · simp only [if_neg hf]
        rw [List.filter_append, ← hgr fwl hfwl]
        have : ¬ (keyOf x = fwl.file) := fun hEq => hf hEq.symm
        simp [this]
    · intro f
      rw [hmap, List.map_append, hkeys f]
      constructor
      · intro hf; exact List.mem_append_left _ hf
      · intro hf
        cases List.mem_append.mp hf with
        | inl hl => exact hl
        | inr hr =>
          have hfx : f = keyOf x := by simpa using hr
          rw [hfx]
          exact (hkeys (keyOf x)).mp hin
  · -- fresh key: a new group is appended at the end
    have hnotin : keyOf x ∉ m.map FileWithLocations.file := by
      intro hmem
      rcases List.mem_map.mp hmem with ⟨fwl, hfwl, hEq⟩
      have : m.any (fun fwl => decide (fwl.file = keyOf x)) = true :=
        List.any_eq_true.mpr ⟨fwl, hfwl, decide_eq_true hEq⟩
      exact hany this
    have hfilter : prev.filter (fun y => decide (keyOf y = keyOf x)) = [] := by
      rw [List.filter_eq_nil_iff]
      intro y hy hdec
      have hky : keyOf y = keyOf x := of_decide_eq_true hdec
      have : keyOf x ∈ prev.map keyOf := hky ▸ List.mem_map_of_mem keyOf hy
      exact hnotin ((hkeys (keyOf x)).mpr this)
    refine ⟨?_, ?_, ?_⟩
    · rw [List.map_append]
      simp only [List.map_cons, List.map_nil]
      rw [List.nodup_append]
      refine ⟨hnd, List.nodup_singleton _, ?_⟩
      intro a ha hb
      have : a = keyOf x := by simpa using hb
      exact hnotin (this ▸ ha)
    · intro fwl hmem
      cases List.mem_append.mp hmem with
      | inl hl =>
        rw [List.filter_append, ← hgr fwl hl]
        have hne : fwl.file ≠ keyOf x := by
          intro hEq
          exact hnotin (hEq ▸ List.mem_map_of_mem FileWithLocations.file hl)
        have : ¬ (keyOf x = fwl.file) := fun hEq => hne hEq.symm
        simp [this]
      | inr hr =>
        have hfwl : fwl = { file := keyOf x, locations := [x] } := by simpa using hr
        subst hfwl
        simp only [List.filter_append]
        simp [hfilter]
    · intro f
      rw [List.map_append, List.map_append]
      simp only [List.map_cons, List.map_nil]
      rw [List.mem_append, List.mem_append, hkeys f]

lemma foldl_addLoc_inv :
    ∀ (l prev : List Location) (m : List FileWithLocations),
      RecordInv prev m → RecordInv (prev ++ l) (l.foldl addLoc m)
  | [], prev, m, h => by simpa using h
  | x :: l, prev, m, h => by
    have step := addLoc_inv prev m x h
    have ih := foldl_addLoc_inv l (prev ++ [x]) (addLoc m x) step
    simpa using ih

lemma recordInv_nil : RecordInv [] [] := by
  refine ⟨List.nodup_nil, ?_, ?_⟩ <;> simp [RecordInv]

lemma fold_inv (l : List Location) : RecordInv l (l.foldl addLoc []) := by
  simpa using foldl_addLoc_inv l [] [] recordInv_nil

/-! ### Structure of the produced tree -/

lemma fileCmp_trans (a b c : FileWithLocations)
    (h1 : asc a.file b.file ≤ 0) (h2 : asc b.file c.file ≤ 0) : asc a.file c.file ≤ 0 :=
  (asc_le_iff _ _).mpr (le_trans ((asc_le_iff _ _).mp h1) ((asc_le_iff _ _).mp h2))

lemma fileCmp_total (a b : FileWithLocations) :
    asc a.file b.file ≤ 0 ∨ asc b.file a.file ≤ 0 := by
  cases le_total a.file b.file with
  | inl h => exact Or.inl ((asc_le_iff _ _).mpr h)
  | inr h => exact Or.inr ((asc_le_iff _ _).mpr h)

lemma cmpLoc_trans (a b c : Location)
    (h1 : compareLocations a b ≤ 0) (h2 : compareLocations b c ≤ 0) :
    compareLocations a c ≤ 0 :=
  (compareLocations_le_iff _ _).mpr
    (startLe_trans a b c ((compareLocations_le_iff _ _).mp h1)
      ((compareLocations_le_iff _ _).mp h2))

lemma cmpLoc_total (a b : Location) :
    compareLocations a b ≤ 0 ∨ compareLocations b a ≤ 0 := by
  cases startLe_total a b with
  | inl h => exact Or.inl ((compareLocations_le_iff _ _).mpr h)
  | inr h => exact Or.inr ((compareLocations_le_iff _ _).mpr h)

lemma locationListToTree_eq (l : List Location) :
    locationListToTree l =
      (jsSort (fun a b => asc a.file b.file) (l.foldl addLoc [])).map
        (fun fwl => { fwl with locations := jsSort compareLocations fwl.locations }) := rfl

lemma tree_mem (l : List Location) (fwl : FileWithLocations)
    (h : fwl ∈ locationListToTree l) :
    fwl.locations =
        jsSort compareLocations (l.filter (fun x => decide (keyOf x = fwl.file))) ∧
      fwl.file ∈ (l.foldl addLoc []).map FileWithLocations.file := by
  rw [locationListToTree_eq] at h
  rcases List.mem_map.mp h with ⟨fwl', hmem', hEq⟩
  have hmemF : fwl' ∈ l.foldl addLoc [] := ((jsSort_perm _ _).mem_iff).mp hmem'
  obtain ⟨hnd, hgr, hkeys⟩ := fold_inv l
  constructor
  · rw [← hEq]
    show jsSort compareLocations fwl'.locations =
      jsSort compareLocations (l.filter (fun x => decide (keyOf x = fwl'.file)))
    rw [hgr fwl' hmemF]
  · rw [← hEq]
    show fwl'.file ∈ (l.foldl addLoc []).map FileWithLocations.file
    exact List.mem_map_of_mem _ hmemF

lemma tree_map_file (l : List Location) :
    (locationListToTree l).map FileWithLocations.file =
      (jsSort (fun a b => asc a.file b.file) (l.foldl addLoc [])).map
        FileWithLocations.file := by
  rw [locationListToTree_eq, List.map_map]
  exact List.map_congr_left (fun a _ => rfl)

lemma tree_files_nodup (l : List Location) :
    ((locationListToTree l).map FileWithLocations.file).Nodup := by
  rw [tree_map_file]
  obtain ⟨hnd, _, _⟩ := fold_inv l
  exact (List.Perm.nodup_iff ((jsSort_perm _ _).map FileWithLocations.file)).mpr hnd

lemma tree_keys (l : List Location) (f : JsStr) :
    f ∈ (locationListToTree l).map FileWithLocations.file ↔ f ∈ l.map keyOf := by
  rw [tree_map_file]
  obtain ⟨_, _, hkeys⟩ := fold_inv l
  rw [((jsSort_perm _ _).map FileWithLocations.file).mem_iff]
  exact hkeys f

lemma tree_sorted_files (l : List Location) :
    (locationListToTree l).Pairwise (fun a b => a.file ≤ b.file) := by
  rw [locationListToTree_eq]
  have hs := jsSort_sorted (fun a b : FileWithLocations => asc a.file b.file)
    fileCmp_trans fileCmp_total (l.foldl addLoc [])
  exact List.Pairwise.map _ (fun a b hab => (asc_le_iff _ _).mp hab) hs

lemma tree_group_sorted (l : List Location) (fwl : FileWithLocations)
    (h : fwl ∈ locationListToTree l) : fwl.locations.Pairwise startLe := by
  rw [(tree_mem l fwl h).1]
  have hs := jsSort_sorted compareLocations cmpLoc_trans cmpLoc_total
    (l.filter (fun x => decide (keyOf x = fwl.file)))
  exact hs.imp (fun hab => (compareLocations_le_iff _ _).mp hab)

lemma tree_group_key (l : List Location) (fwl : FileWithLocations)
    (h : fwl ∈ locationListToTree l) : ∀ x ∈ fwl.locations, keyOf x = fwl.file := by
  intro x hx
  rw [(tree_mem l fwl h).1] at hx
  have hx' := ((jsSort_perm _ _).mem_iff).mp hx
  exact of_decide_eq_true (List.mem_filter.mp hx').2

lemma tree_canonical (l : List Location) :
    ((locationListToTree l).map FileWithLocations.file).map
        (fun f => FileWithLocations.mk f
          (jsSort compareLocations (l.filter (fun x => decide (keyOf x = f)))))
      = locationListToTree l := by
  rw [List.map_map]
  conv_rhs => rw [← List.map_id (locationListToTree l)]
  refine List.map_congr_left ?_
  intro fwl hmem
  have h1 := (tree_mem l fwl hmem).1
  show FileWithLocations.mk fwl.file
      (jsSort compareLocations (l.filter (fun x => decide (keyOf x = fwl.file)))) = fwl
  rw [← h1]

/-! ### Partition lemmas: every hit lands in exactly one group -/

lemma flatten_nil_pieces : ∀ (keys : List JsStr),
    ((keys.map (fun _ => ([] : List Location))).flatten) = [] := by
  intro keys
  induction keys with
  | nil => rfl
  | cons f ks ih => simp [ih]

lemma flatten_filter_cons (x : Location) (t : List Location) :
    ∀ (keys : List JsStr), keys.Nodup → keyOf x ∈ keys →
      ((keys.map (fun f => (x :: t).filter (fun y => decide (keyOf y = f)))).flatten).Perm
        (x :: (keys.map (fun f => t.filter (fun y => decide (keyOf y = f)))).flatten) := by
  intro keys
  induction keys with
  | nil => intro _ hx; exact absurd hx (List.not_mem_nil _)
  | cons f ks ih =>
    intro hnd hx
    simp only [List.map_cons, List.flatten_cons]
    by_cases hxf : keyOf x = f
    · have hnot : keyOf x ∉ ks := hxf ▸ (List.nodup_cons.mp hnd).1
      have hrest : ks.map (fun g => (x :: t).filter (fun y => decide (keyOf y = g))) =
          ks.map (fun g => t.filter (fun y => decide (keyOf y = g))) := by
        refine List.map_congr_left ?_
        intro g hg
        have hne : keyOf x ≠ g := fun hEq => hnot (hEq ▸ hg)
        simp [List.filter_cons, hne]
      have hhead : (x :: t).filter (fun y => decide (keyOf y = f)) =
          x :: t.filter (fun y => decide (keyOf y = f)) := by
        simp [List.filter_cons, hxf]
      rw [hrest, hhead]
      exact List.Perm.refl _
    · have hxks : keyOf x ∈ ks := by
        cases List.mem_cons.mp hx with
        | inl h => exact absurd h hxf
        | inr h => exact h
      have ihp := ih (List.nodup_cons.mp hnd).2 hxks
      have hhead : (x :: t).filter (fun y => decide (keyOf y = f)) =
          t.filter (fun y => decide (keyOf y = f)) := by
        simp [List.filter_cons, hxf]
      rw [hhead]
      exact (List.Perm.append_left _ ihp).trans List.perm_middle

lemma flatten_filter_perm :
    ∀ (l : List Location) (keys : List JsStr), keys.Nodup →
      (∀ x ∈ l, keyOf x ∈ keys) →
      ((keys.map (fun f => l.filter (fun y => decide (keyOf y = f)))).flatten).Perm l := by
  intro l
  induction l with
  | nil =>
    intro keys _ _
    simp only [List.filter_nil]
    rw [flatten_nil_pieces]
  | cons x t ih =>
    intro keys hnd hmem
    have h1 := flatten_filter_cons x t keys hnd (hmem x (List.mem_cons_self x t))
    have h2 := ih keys hnd (fun y hy => hmem y (List.mem_cons_of_mem x hy))
    exact h1.trans (h2.cons x)

lemma flatten_jsSort_perm (l : List Location) :
    ∀ keys : List JsStr,
      ((keys.map (fun f =>
          jsSort compareLocations (l.filter (fun y => decide (keyOf y = f))))).flatten).Perm
        ((keys.map (fun f => l.filter (fun y => decide (keyOf y = f)))).flatten) := by
  intro keys
  induction keys with
  | nil => exact List.Perm.refl _
  | cons f ks ih =>
    simp only [List.map_cons, List.flatten_cons]
    exact List.Perm.append (jsSort_perm _ _) ih

lemma tree_flatten_perm (l : List Location) :
    (((locationListToTree l).map FileWithLocations.locations).flatten).Perm l := by
  have hmap : (locationListToTree l).map FileWithLocations.locations =
      ((locationListToTree l).map FileWithLocations.file).map
        (fun f => jsSort compareLocations (l.filter (fun y => decide (keyOf y = f)))) := by
    conv_lhs => rw [← tree_canonical l, List.map_map]
    rw [List.map_map, List.map_map]
    exact List.map_congr_left (fun a _ => rfl)
  rw [hmap]
  have h1 := flatten_jsSort_perm l ((locationListToTree l).map FileWithLocations.file)
  have h2 := flatten_filter_perm l ((locationListToTree l).map FileWithLocations.file)
    (tree_files_nodup l)
    (fun x hx => (tree_keys l (keyOf x)).mpr (List.mem_map_of_mem keyOf hx))
  exact h1.trans h2

/-! ### Claims about locationListToTree -/

/-- C1: for every input list of hits, `locationListToTree` returns file groups
sorted in ascending ordinal (lexicographic) order of source-file basename, and
within each file group the hits are sorted by start position, line first and
then character, both ascending. -/
theorem C1_tree_ordering (l : List Location) :
    (locationListToTree l).Pairwise (fun a b => a.file < b.file) ∧
    ∀ fwl ∈ locationListToTree l, fwl.locations.Pairwise (fun a b =>
      a.range.start.line < b.range.start.line ∨
        (a.range.start.line = b.range.start.line ∧
          a.range.start.character ≤ b.range.start.character)) := by
  constructor
  · have hle := tree_sorted_files l
    have hne : (locationListToTree l).Pairwise (fun a b => a.file ≠ b.file) :=
      List.pairwise_map.mp (tree_files_nodup l)
    exact (hle.and hne).imp (fun h => lt_of_le_of_ne h.1 h.2)
  · intro fwl h
    exact tree_group_sorted l fwl h

/-- C3: `locationListToTree` preserves every hit: the concatenation of all
groups is a permutation of the input (so duplicates are kept, nothing is
dropped), the group count of hits sums to the input length, the groups have
pairwise distinct basenames, and every hit sits in the group of its source
basename — hence in exactly one group. -/
theorem C3_no_hit_dropped (l : List Location) :
    (((locationListToTree l).map FileWithLocations.locations).flatten).Perm l ∧
    (((locationListToTree l).map (fun fwl => fwl.locations.length)).sum = l.length) ∧
    ((locationListToTree l).map FileWithLocations.file).Nodup ∧
    ∀ fwl ∈ locationListToTree l, ∀ x ∈ fwl.locations,
      basename x.uri.fsPath = fwl.file := by
  refine ⟨tree_flatten_perm l, ?_, tree_files_nodup l, ?_⟩
  · have hlen := (tree_flatten_perm l).length_eq
    rw [List.length_flatten, List.map_map] at hlen
    exact hlen
  · intro fwl h x hx
    exact tree_group_key l fwl h x hx

/-- C7: note identity in grouping is basename-only: two hits whose source
paths share a basename (even if the full paths differ) land in one and the
same file group, and no other group contains either of them. -/
theorem C7_basename_only_identity (l : List Location) (x y : Location)
    (hx : x ∈ l) (hy : y ∈ l)
    (hbase : basename x.uri.fsPath = basename y.uri.fsPath) :
    (∃ fwl ∈ locationListToTree l, x ∈ fwl.locations ∧ y ∈ fwl.locations) ∧
    ∀ fwl ∈ locationListToTree l, ∀ fwl' ∈ locationListToTree l,
      x ∈ fwl.locations → y ∈ fwl'.locations → fwl = fwl' := by
  have hxy : keyOf x = keyOf y := hbase
  constructor
  · have hkx : keyOf x ∈ (locationListToTree l).map FileWithLocations.file :=
      (tree_keys l (keyOf x)).mpr (List.mem_map_of_mem keyOf hx)
    rcases List.mem_map.mp hkx with ⟨fwl, hfwl, hfile⟩
    refine ⟨fwl, hfwl, ?_, ?_⟩
    · rw [(tree_mem l fwl hfwl).1, ((jsSort_perm _ _).mem_iff)]
      exact List.mem_filter.mpr ⟨hx, decide_eq_true hfile.symm⟩
    · rw [(tree_mem l fwl hfwl).1, ((jsSort_perm _ _).mem_iff)]
      refine List.mem_filter.mpr ⟨hy, decide_eq_true ?_⟩
      rw [← hxy]
      exact hfile.symm
  · intro fwl h fwl' h' hxg hyg
    have h1 : keyOf x = fwl.file := tree_group_key l fwl h x hxg
    have h2 : keyOf y = fwl'.file := tree_group_key l fwl' h' y hyg
    have hff : fwl.file = fwl'.file := by rw [← h1, ← h2, hxy]
    exact List.inj_on_of_nodup_map (tree_files_nodup l) h h' hff

/-- Witness for C7 at a concrete input: `dir1/note.md` and `dir2/note.md`
share the basename `note.md` and are grouped together. -/
theorem C7_witness :
    (⟨⟨['d','1','/','n','.','m','d']⟩, ⟨⟨0, 0⟩, ⟨0, 4⟩⟩⟩ : Location) ∈
        ([⟨⟨['d','1','/','n','.','m','d']⟩, ⟨⟨0, 0⟩, ⟨0, 4⟩⟩⟩,
          ⟨⟨['d','2','/','n','.','m','d']⟩, ⟨⟨1, 0⟩, ⟨1, 4⟩⟩⟩] : List Location) ∧
    (∃ fwl ∈ locationListToTree
        [⟨⟨['d','1','/','n','.','m','d']⟩, ⟨⟨0, 0⟩, ⟨0, 4⟩⟩⟩,
         ⟨⟨['d','2','/','n','.','m','d']⟩, ⟨⟨1, 0⟩, ⟨1, 4⟩⟩⟩],
      (⟨⟨['d','1','/','n','.','m','d']⟩, ⟨⟨0, 0⟩, ⟨0, 4⟩⟩⟩ : Location) ∈ fwl.locations ∧
      (⟨⟨['d','2','/','n','.','m','d']⟩, ⟨⟨1, 0⟩, ⟨1, 4⟩⟩⟩ : Location) ∈ fwl.locations) :=
  ⟨by decide,
    (C7_basename_only_identity
      [⟨⟨['d','1','/','n','.','m','d']⟩, ⟨⟨0, 0⟩, ⟨0, 4⟩⟩⟩,
       ⟨⟨['d','2','/','n','.','m','d']⟩, ⟨⟨1, 0⟩, ⟨1, 4⟩⟩⟩]
      ⟨⟨['d','1','/','n','.','m','d']⟩, ⟨⟨0, 0⟩, ⟨0, 4⟩⟩⟩
      ⟨⟨['d','2','/','n','.','m','d']⟩, ⟨⟨1, 0⟩, ⟨1, 4⟩⟩⟩
      (by decide) (by decide) (by decide)).1⟩

/-! ### Determinism up to permutation of the input (C2) -/

lemma jsSort_filter_eq (l₁ l₂ : List Location) (f : JsStr)
    (hperm : l₁.Perm l₂)
    (hties : ∀ x ∈ l₁, ∀ y ∈ l₁, keyOf x = keyOf y →
      x.range.start = y.range.start → x = y) :
    jsSort compareLocations (l₁.filter (fun y => decide (keyOf y = f))) =
      jsSort compareLocations (l₂.filter (fun y => decide (keyOf y = f))) := by
  refine eq_of_perm_of_pairwise ?_
    ((jsSort_perm _ _).trans ((hperm.filter _).trans (jsSort_perm _ _).symm))
    (jsSort_sorted _ cmpLoc_trans cmpLoc_total _)
    (jsSort_sorted _ cmpLoc_trans cmpLoc_total _)
  intro a ha b hb hab hba
  have ha' := ((jsSort_perm _ _).mem_iff).mp ha
  have hb' := ((jsSort_perm _ _).mem_iff).mp hb
  have hak : keyOf a = f := of_decide_eq_true (List.mem_filter.mp ha').2
  have hbk : keyOf b = f := of_decide_eq_true (List.mem_filter.mp hb').2
  have hstart := startLe_antisymm_start a b ((compareLocations_le_iff _ _).mp hab)
    ((compareLocations_le_iff _ _).mp hba)
  exact hties a (List.mem_filter.mp ha').1 b (List.mem_filter.mp hb').1
    (by rw [hak, hbk]) hstart

lemma tree_files_eq (l₁ l₂ : List Location) (hperm : l₁.Perm l₂) :
    (locationListToTree l₁).map FileWithLocations.file =
      (locationListToTree l₂).map FileWithLocations.file := by
  refine eq_of_perm_of_pairwise ?_ ?_
    (List.pairwise_map.mpr (tree_sorted_files l₁))
    (List.pairwise_map.mpr (tree_sorted_files l₂))
  · intro a _ b _ hab hba
    exact le_antisymm hab hba
  · refine (List.perm_ext_iff_of_nodup (tree_files_nodup l₁) (tree_files_nodup l₂)).mpr ?_
    intro f
    rw [tree_keys, tree_keys]
    exact (hperm.map keyOf).mem_iff

/-- Two source locations with the same basename `n.md` in different
directories and the same start position. -/
def locD1 : Location := ⟨⟨['d','1','/','n','.','m','d']⟩, ⟨⟨0, 0⟩, ⟨0, 4⟩⟩⟩

def locD2 : Location := ⟨⟨['d','2','/','n','.','m','d']⟩, ⟨⟨0, 0⟩, ⟨0, 4⟩⟩⟩

/-- A location in an unrelated file `o.md`. -/
def locO : Location := ⟨⟨['o','.','m','d']⟩, ⟨⟨2, 3⟩, ⟨2, 5⟩⟩⟩

/-- C2 fails as stated: two distinct hits that share a basename and a start
position keep their input order inside the group (both sorts are stable), so
permuting the input changes the output tree. -/
theorem C2_counterexample :
    ([locD1, locD2].Perm [locD2, locD1]) ∧
    locationListToTree [locD1, locD2] ≠ locationListToTree [locD2, locD1] := by
  decide

/-- C2 amended: for input lists that are permutations of each other,
`locationListToTree` returns identical trees provided any two hits sharing
both a source basename and a start position are equal; two runs on the very
same input list trivially agree because the function is pure. -/
theorem C2_perm_invariance (l₁ l₂ : List Location) (hperm : l₁.Perm l₂)
    (hties : ∀ x ∈ l₁, ∀ y ∈ l₁, basename x.uri.fsPath = basename y.uri.fsPath →
      x.range.start = y.range.start → x = y) :
    locationListToTree l₁ = locationListToTree l₂ := by
  have hkeys := tree_files_eq l₁ l₂ hperm
  have hgroups : ∀ f : JsStr,
      FileWithLocations.mk f (jsSort compareLocations
        (l₁.filter (fun y => decide (keyOf y = f)))) =
      FileWithLocations.mk f (jsSort compareLocations
        (l₂.filter (fun y => decide (keyOf y = f)))) := by
    intro f
    rw [jsSort_filter_eq l₁ l₂ f hperm hties]
  calc locationListToTree l₁
      = ((locationListToTree l₁).map FileWithLocations.file).map
          (fun f => FileWithLocations.mk f (jsSort compareLocations
            (l₁.filter (fun y => decide (keyOf y = f))))) := (tree_canonical l₁).symm
    _ = ((locationListToTree l₂).map FileWithLocations.file).map
          (fun f => FileWithLocations.mk f (jsSort compareLocations
            (l₂.filter (fun y => decide (keyOf y = f))))) := by
          rw [hkeys]
          exact List.map_congr_left (fun f _ => hgroups f)
    _ = locationListToTree l₂ := tree_canonical l₂

/-- Witness for the amended C2 at a concrete input: two hits in different
files, fed in both orders. -/
theorem C2_witness :
    ([locD1, locO].Perm [locO, locD1]) ∧
    locationListToTree [locD1, locO] = locationListToTree [locO, locD1] :=
  ⟨by decide,
    C2_perm_invariance [locD1, locO] [locO, locD1] (by decide) (by decide)⟩

/-! ### Preview extraction (C4, C10) -/

lemma backlinkDescription_eq_map (fc : Option JsStr) (loc : Location) :
    backlinkDescription fc loc =
      ((splitLines (fc.getD []))[loc.range.start.line]?).map
        (fun line => line.drop (previewStart loc.range.start.character).toNat) := by
  cases h : (splitLines (fc.getD []))[loc.range.start.line]? with
  | none => simp [backlinkDescription, h]
  | some line => simp [backlinkDescription, h]

/-- C4: for a hit with start column `c` whose start line exists in the source
text, the preview is the suffix of that single line from offset
`s = c - 12`, replaced by `0` whenever `s < 20` (which in particular clamps
every negative `s`); `c = 5` gives preview start `0` and `c = 40` gives `28`. -/
theorem C4_preview_clamp (fc : Option JsStr) (loc : Location) (line : JsStr)
    (h : (splitLines (fc.getD []))[loc.range.start.line]? = some line) :
    backlinkDescription fc loc =
      some (line.drop
        ((if (loc.range.start.character : Int) - 12 < 20 then 0
          else (loc.range.start.character : Int) - 12).toNat)) ∧
    previewStart 5 = 0 ∧ previewStart 40 = 28 := by
  refine ⟨?_, by decide, by decide⟩
  rw [backlinkDescription_eq_map, h]
  simp [previewStart]

/-- Witness for C4: contents `"ab\nxyz"`, hit at line 1, column 5. -/
theorem C4_witness :
    backlinkDescription (some ['a','b','\n','x','y','z'])
        ⟨⟨['w','.','m','d']⟩, ⟨⟨1, 5⟩, ⟨1, 6⟩⟩⟩ = some ['x','y','z'] ∧
    previewStart 5 = 0 ∧ previewStart 40 = 28 := by
  have h := C4_preview_clamp (some ['a','b','\n','x','y','z'])
    ⟨⟨['w','.','m','d']⟩, ⟨⟨1, 5⟩, ⟨1, 6⟩⟩⟩ ['x','y','z'] (by decide)
  refine ⟨?_, h.2.1, h.2.2⟩
  rw [h.1]
  decide

/-- C10: the preview computation is total exactly when the hit's start line
indexes a line of the supplied contents; otherwise the JavaScript code throws
(modelled by `none`).  With absent contents the split yields one empty line,
so any start line at least 1 is out of range. -/
theorem C10_preview_totality :
    (∀ (fc : Option JsStr) (loc : Location),
        (backlinkDescription fc loc).isSome = true ↔
          loc.range.start.line < (splitLines (fc.getD [])).length) ∧
    (∀ loc : Location, 1 ≤ loc.range.start.line →
      backlinkDescription none loc = none) := by
  constructor
  · intro fc loc
    rw [backlinkDescription_eq_map, Option.isSome_map']
    constructor
    · intro hs
      rcases Option.isSome_iff_exists.mp hs with ⟨line, hg⟩
      exact (List.getElem?_eq_some_iff.mp hg).1
    · intro hlt
      rw [List.getElem?_eq_getElem hlt]
      rfl
  · intro loc h
    rw [backlinkDescription_eq_map]
    have hnone : (splitLines ((none : Option JsStr).getD []))[loc.range.start.line]? = none := by
      apply List.getElem?_eq_none
      show (splitLines ((none : Option JsStr).getD [])).length ≤ loc.range.start.line
      have hlen : (splitLines ((none : Option JsStr).getD [])).length = 1 := rfl
      rw [hlen]
      exact h
    rw [hnone]
    rfl

/-- Witness for C10: absent contents and a hit on line 1 hit the error
branch. -/
theorem C10_witness :
    backlinkDescription none (⟨⟨['a']⟩, ⟨⟨1, 0⟩, ⟨1, 1⟩⟩⟩ : Location) = none :=
  C10_preview_totality.2 ⟨⟨['a']⟩, ⟨⟨1, 0⟩, ⟨1, 1⟩⟩⟩ (by decide)

/-! ### The top-level query (C5, C6, C8, C9) -/

/-- C5: with no active note the top-level query returns an empty result, shows
no message and issues no corpus query; and grouping the empty hit list yields
the empty tree. -/
theorem C5_empty_handling (env : Env) (search : RefType → JsStr → List Location)
    (h : falsy env.activeFsPath = true) :
    getChildrenTop env search = { groups := [], issued := [], showedMessage := false } ∧
    locationListToTree [] = [] := by
  refine ⟨?_, rfl⟩
  simp [getChildrenTop, h]

/-- Witness for C5: no active editor. -/
theorem C5_witness :
    getChildrenTop ⟨none, some ['r']⟩ (fun _ _ => []) =
        { groups := [], issued := [], showedMessage := false } ∧
    locationListToTree [] = [] :=
  C5_empty_handling ⟨none, some ['r']⟩ (fun _ _ => []) rfl

/-- C6: with an active note but no workspace root, the query returns an empty
result (no exception, no corpus query) and the informational message is
shown. -/
theorem C6_no_workspace_notice (env : Env) (search : RefType → JsStr → List Location)
    (h1 : falsy env.activeFsPath = false) (h2 : falsy env.workspaceRoot = true) :
    getChildrenTop env search = { groups := [], issued := [], showedMessage := true } := by
  simp [getChildrenTop, h1, h2]

/-- Witness for C6: active note `a.md`, no workspace root. -/
theorem C6_witness :
    getChildrenTop ⟨some ['a','.','m','d'], none⟩ (fun _ _ => []) =
      { groups := [], issued := [], showedMessage := true } :=
  C6_no_workspace_notice ⟨some ['a','.','m','d'], none⟩ (fun _ _ => []) (by decide) rfl

/-- C8: with an active note and a workspace root, both reference-kind scans
are issued, and the tree is the grouping of the concatenation of the completed
wiki-link results with the completed hyperlink results — grouping consumes
only the joined output of both scans. -/
theorem C8_join_then_group (env : Env) (search : RefType → JsStr → List Location)
    (f : JsStr) (hf : env.activeFsPath = some f) (hne : f ≠ [])
    (hr : falsy env.workspaceRoot = false) :
    getChildrenTop env search =
      { groups := locationListToTree
          (search RefType.WikiLink (basename f) ++ search RefType.Hyperlink (basename f)),
        issued := [(RefType.WikiLink, basename f), (RefType.Hyperlink, basename f)],
        showedMessage := false } := by
  have hfs : falsy (some f) = false := by
    show decide (f = []) = false
    exact decide_eq_false hne
  simp [getChildrenTop, hf, hfs, hr]

/-- Witness for C8: a one-file corpus searched for note `a`. -/
theorem C8_witness :
    getChildrenTop ⟨some ['a'], some ['r']⟩ (fun _ _ => [locO]) =
      { groups := locationListToTree ([locO] ++ [locO]),
        issued := [(RefType.WikiLink, basename ['a']), (RefType.Hyperlink, basename ['a'])],
        showedMessage := false } :=
  C8_join_then_group ⟨some ['a'], some ['r']⟩ (fun _ _ => [locO]) ['a'] rfl (by decide) rfl

/-- C9: the no-active-note check runs first: the informational message is
shown exactly when an active note exists (truthy) and the workspace root is
falsy; with no active note the query returns the empty, message-free result
even if the workspace root is also missing. -/
theorem C9_active_check_precedence (env : Env) (search : RefType → JsStr → List Location) :
    ((getChildrenTop env search).showedMessage = true ↔
      (falsy env.activeFsPath = false ∧ falsy env.workspaceRoot = true)) ∧
    (falsy env.activeFsPath = true →
      getChildrenTop env search = { groups := [], issued := [], showedMessage := false }) := by
  constructor
  · cases hA : falsy env.activeFsPath <;> cases hR : falsy env.workspaceRoot <;>
      simp [getChildrenTop, hA, hR]
  · intro h
    simp [getChildrenTop, h]

/-- Witness for C9: neither an active note nor a workspace root; no message. -/
theorem C9_witness :
    getChildrenTop ⟨none, none⟩ (fun _ _ => []) =
      { groups := [], issued := [], showedMessage := false } :=
  (C9_active_check_precedence ⟨none, none⟩ (fun _ _ => [])).2 rfl

/-- Witness for C1: the ordering theorem applied to a concrete hit list. -/
theorem C1_witness :
    (locationListToTree [locO, locD1]).Pairwise (fun a b => a.file < b.file) ∧
    ∀ fwl ∈ locationListToTree [locO, locD1], fwl.locations.Pairwise (fun a b =>
      a.range.start.line < b.range.start.line ∨
        (a.range.start.line = b.range.start.line ∧
          a.range.start.character ≤ b.range.start.character)) :=
  C1_tree_ordering [locO, locD1]

/-- Witness for C3: the preservation theorem applied to a concrete hit list
containing two hits with the same basename and start position. -/
theorem C3_witness :
    (((locationListToTree [locD1, locD2]).map FileWithLocations.locations).flatten).Perm
      [locD1, locD2] :=
  (C3_no_hit_dropped [locD1, locD2]).1
